import Mathlib

/-!
# Verification of the caption4sounds prediction pipeline

Shallow embedding of `src/api/prediction_utils.py` and proofs about it.

The embedding follows the source closely:
* `block` embeds `block(vggish_features, window, hop)` — the sliding-window
  blower-up of the (T, F) embedding sequence built from
  `np.arange(0, T - window, hop)` start offsets;
* `attention_pooling`, `attWeights`, `preOutput`, `forwardBlock` embed the
  Keras model assembled in `constrct_model` (dense / batch-norm / relu
  feature layers, two attention heads with sigmoid class activations and
  class-axis softmax attention weights, attention pooling, concatenation,
  final dense layer and sigmoid);
* `model_prediction` embeds `model_prediction(model, block_10s, threshold)`
  including the `(np.float32(x) - 128.) / 128.` rescaling, the
  `np.where(prediction > threshold)` index extraction and the per-time-step
  boolean-mask loop;
* `prediction_label` embeds `prediction_label(...)`, looking up each class
  index as a row of the label table column.

Machine floats are modelled by exact rationals; numpy tensors by nested
lists; the network's transcendental `exp` is an explicit function parameter
(positivity of `exp` is all the range proofs need).
-/

namespace Caption4Sounds

/-! ## Block Windower: `block(vggish_features, window, hop)` -/

/-- `np.arange(0, stop, step)` on natural numbers: `0, step, 2*step, ...`
strictly below `stop` (empty when `stop = 0`, matching numpy for a
non-positive stop). -/
def arange (stop step : ℕ) : List ℕ :=
  (List.range ((stop + step - 1) / step)).map (fun i => i * step)

/-- Embedding of `block`: start offsets `np.arange(0, T - window, hop)`,
and for each start offset `s` the rows `s, s+1, ..., s+window-1` of
`vggish_features` (the `np.take` of `index_window + index_hop`). -/
def block {α : Type} (vggish_features : List α) (window hop : ℕ) :
    List (List α) :=
  (arange (vggish_features.length - window) hop).map
    (fun s => (vggish_features.drop s).take window)

theorem arange_length (stop step : ℕ) :
    (arange stop step).length = (stop + step - 1) / step := by
  simp [arange]

theorem mem_arange_iff (stop step : ℕ) (hstep : 0 < step) (s : ℕ) :
    s ∈ arange stop step ↔ step ∣ s ∧ s < stop := by
  constructor
  · intro hs
    rcases List.mem_map.mp hs with ⟨i, hi, rfl⟩
    refine ⟨dvd_mul_left step i, ?_⟩
    rw [List.mem_range] at hi
    have h1 : i + 1 ≤ (stop + step - 1) / step := hi
    rw [Nat.le_div_iff_mul_le hstep] at h1
    have h2 : i * step + step ≤ stop + step - 1 := by
      calc i * step + step = (i + 1) * step := by ring
        _ ≤ stop + step - 1 := h1
    omega
  · rintro ⟨⟨i, rfl⟩, hlt⟩
    refine List.mem_map.mpr ⟨i, ?_, by ring⟩
    rw [List.mem_range, Nat.lt_iff_add_one_le, Nat.le_div_iff_mul_le hstep]
    have h2 : i * step < stop := by
      calc i * step = step * i := by ring
        _ < stop := hlt
    have h3 : (i + 1) * step = i * step + step := by ring
    omega

/-- C1: for an embedding sequence with `T > window` and positive `window`
and `hop`, `block` produces exactly the blocks whose start offsets are
`np.arange(0, T - window, hop)` — i.e. `0, hop, 2*hop, ...` strictly below
`T - window`, a final window starting exactly at `T - window` excluded —
and block `i` is `embedding_sequence[i*hop : i*hop + window]`. -/
theorem block_offsets_spec {α : Type} (vggish_features : List α)
    (window hop : ℕ) (hT : window < vggish_features.length)
    (hw : 0 < window) (hh : 0 < hop) :
    (block vggish_features window hop).length
        = (vggish_features.length - window + hop - 1) / hop
    ∧ ∀ i : ℕ, (block vggish_features window hop)[i]? =
        if i * hop < vggish_features.length - window
        then some ((vggish_features.drop (i * hop)).take window)
        else none := by
  constructor
  · simp [block, arange]
  · intro i
    have hiff : i < (vggish_features.length - window + hop - 1) / hop
        ↔ i * hop < vggish_features.length - window := by
      rw [Nat.lt_iff_add_one_le, Nat.le_div_iff_mul_le hh]
      have h3 : (i + 1) * hop = i * hop + hop := by ring
      rw [h3]
      generalize i * hop = k
      omega
    by_cases hcase : i * hop < vggish_features.length - window
    · rw [if_pos hcase]
      have hi : i < (vggish_features.length - window + hop - 1) / hop :=
        hiff.mpr hcase
      simp only [block, arange, List.getElem?_map]
      rw [List.getElem?_range hi]
      simp
    · rw [if_neg hcase]
      have hi : ¬ i < (vggish_features.length - window + hop - 1) / hop :=
        fun h => hcase (hiff.mp h)
      simp only [block, arange, List.getElem?_map]
      rw [List.getElem?_eq_none (by simp only [List.length_range]; omega)]
      simp

/-- Witness for C1 at the spec's literal case T=20, window=10, hop=5:
two blocks, start offsets 0 and 5, and no third block. -/
theorem block_offsets_spec_witness :
    (block (List.range 20) 10 5).length = 2
    ∧ (block (List.range 20) 10 5)[0]? = some ((List.range 20).take 10)
    ∧ (block (List.range 20) 10 5)[1]? =
        some (((List.range 20).drop 5).take 10)
    ∧ (block (List.range 20) 10 5)[2]? = none := by
  have h := block_offsets_spec (List.range 20) 10 5 (by decide) (by decide)
    (by decide)
  refine ⟨?_, ?_, ?_, ?_⟩
  · rw [h.1]; decide
  · rw [h.2 0]; decide
  · rw [h.2 1]; decide
  · rw [h.2 2]; decide

/-- C2 counterexample: at T = window = 10 the code raises nothing — there is
no `InsufficientLengthError` (or any raise) in `block`; the offset generator
`np.arange(0, 0, 5)` is empty and `block` returns the empty block tensor as
an ordinary value. -/
theorem block_short_counterexample :
    block (List.range 10) 10 5 = ([] : List (List ℕ)) := by decide

/-- C2 amended: for `T ≤ window` (and positive hop), `block` raises no
error and returns the empty block tensor — zero blocks. -/
theorem block_short_input {α : Type} (vggish_features : List α)
    (window hop : ℕ) (hlen : vggish_features.length ≤ window)
    (hh : 0 < hop) :
    block vggish_features window hop = [] := by
  have h0 : vggish_features.length - window = 0 := Nat.sub_eq_zero_of_le hlen
  have h1 : (hop - 1) / hop = 0 := Nat.div_eq_of_lt (by omega)
  simp [block, arange, h0, h1]

/-- Witness for the amended C2 at T=8, window=10, hop=5. -/
theorem block_short_input_witness :
    (List.range 8).length ≤ 10 ∧ 0 < 5
    ∧ block (List.range 8) 10 5 = ([] : List (List ℕ)) :=
  ⟨by decide, by decide,
    block_short_input (List.range 8) 10 5 (by decide) (by decide)⟩

/-! ## Attention Classifier: `constrct_model` -/

/-- `tf.clip_by_value(x, lo, hi)` (`K.clip`). -/
def clip (x lo hi : ℚ) : ℚ := min (max x lo) hi

/-- The `epsilon = 1e-7` of the `attention_pooling` closure. -/
def epsilonAP : ℚ := 1 / 10000000

/-- `K.sum(m, axis=1)` for one sample of shape (time, classes): the
per-class sum over the time axis. -/
def sumRows : List (List ℚ) → List ℚ
  | [] => []
  | [r] => r
  | r :: r2 :: rs => List.zipWith (· + ·) r (sumRows (r2 :: rs))

/-- `att = K.clip(att, epsilon, 1. - epsilon)` of `attention_pooling`. -/
def clipAtt (att : List (List ℚ)) : List (List ℚ) :=
  att.map (fun row => row.map (fun x => clip x epsilonAP (1 - epsilonAP)))

/-- `normalized_att = att / K.sum(att, axis=1)[:, None, :]` (after the
clip): each time row divided elementwise by the per-class time sums. -/
def normalizedAtt (att : List (List ℚ)) : List (List ℚ) :=
  (clipAtt att).map
    (fun row => List.zipWith (· / ·) row (sumRows (clipAtt att)))

/-- The `attention_pooling` closure of `constrct_model`, one sample:
`K.sum(out * normalized_att, axis=1)`, collapsing (time, classes) to a
per-class vector. -/
def attention_pooling (out att : List (List ℚ)) : List ℚ :=
  sumRows (List.zipWith (List.zipWith (· * ·)) out (normalizedAtt att))

/-- Dot product of two equal-length vectors. -/
def dot (a b : List ℚ) : ℚ := (List.zipWith (· * ·) a b).sum

/-- A Keras `Dense` layer on one feature vector: one output per weight row
plus its bias entry. -/
def denseRow (w : List (List ℚ)) (b : List ℚ) (x : List ℚ) : List ℚ :=
  List.zipWith (fun wr bu => dot wr x + bu) w b

/-- `Dense` applied along the time axis of a (time, features) sample. -/
def denseT (w : List (List ℚ)) (b : List ℚ) (m : List (List ℚ)) :
    List (List ℚ) :=
  m.map (denseRow w b)

/-- Inference-mode `BatchNormalization`: the frozen per-feature affine map
with scale `gamma / sqrt(var + eps)` and the matching shift. -/
def bnT (scale shift : List ℚ) (m : List (List ℚ)) : List (List ℚ) :=
  m.map (fun row => List.zipWith (· + ·) (List.zipWith (· * ·) scale row) shift)

/-- `Activation('relu')` along a (time, features) sample. -/
def reluT (m : List (List ℚ)) : List (List ℚ) :=
  m.map (fun row => row.map (fun x => max x 0))

/-- Logistic sigmoid, the exponential passed explicitly. -/
def sigmoid (e : ℚ → ℚ) (x : ℚ) : ℚ := 1 / (1 + e (-x))

/-- `activation='sigmoid'` applied elementwise. -/
def sigT (e : ℚ → ℚ) (m : List (List ℚ)) : List (List ℚ) :=
  m.map (fun row => row.map (sigmoid e))

/-- Softmax of one row: Keras `softmax` with its default axis `-1`. -/
def softmaxRow (e : ℚ → ℚ) (row : List ℚ) : List ℚ :=
  row.map (fun x => e x / (row.map e).sum)

/-- The activation of `Dense(classes_num, activation='softmax')` on a
(time, classes) tensor: softmax of each time step's class row — i.e. over
the class axis, not across time. -/
def attWeights (e : ℚ → ℚ) (z : List (List ℚ)) : List (List ℚ) :=
  z.map (softmaxRow e)

/-- The frozen weights of `constrct_model`: three dense+batchnorm feature
layers, two attention heads (class-activation and attention-weight dense
layers), and the final dense layer. -/
structure ModelParams where
  w1 : List (List ℚ)
  b1 : List ℚ
  sc1 : List ℚ
  sh1 : List ℚ
  w2 : List (List ℚ)
  b2 : List ℚ
  sc2 : List ℚ
  sh2 : List ℚ
  w3 : List (List ℚ)
  b3 : List ℚ
  sc3 : List ℚ
  sh3 : List ℚ
  wcla1 : List (List ℚ)
  bcla1 : List ℚ
  watt1 : List (List ℚ)
  batt1 : List ℚ
  wcla2 : List (List ℚ)
  bcla2 : List ℚ
  watt2 : List (List ℚ)
  batt2 : List ℚ
  wfin : List (List ℚ)
  bfin : List ℚ

/-- The graph of `constrct_model` up to (and including) the final
`Dense(classes_num)` layer, for one block. Dropout layers are identity at
inference. Head 1 reads `a2`, head 2 reads `a3`; the two pooled outputs are
concatenated and passed through the final dense layer. -/
def preOutput (e : ℚ → ℚ) (p : ModelParams) (x : List (List ℚ)) :
    List ℚ :=
  let a1 := reluT (bnT p.sc1 p.sh1 (denseT p.w1 p.b1 x))
  let a2 := reluT (bnT p.sc2 p.sh2 (denseT p.w2 p.b2 a1))
  let a3 := reluT (bnT p.sc3 p.sh3 (denseT p.w3 p.b3 a2))
  let out1 := attention_pooling (sigT e (denseT p.wcla1 p.bcla1 a2))
                                (attWeights e (denseT p.watt1 p.batt1 a2))
  let out2 := attention_pooling (sigT e (denseT p.wcla2 p.bcla2 a3))
                                (attWeights e (denseT p.watt2 p.batt2 a3))
  denseRow p.wfin p.bfin (out1 ++ out2)

/-- Full forward pass for one block: `Activation('sigmoid')` applied
elementwise after the final dense layer. -/
def forwardBlock (e : ℚ → ℚ) (p : ModelParams) (x : List (List ℚ)) :
    List ℚ :=
  (preOutput e p x).map (sigmoid e)

/-- `model.predict` over a batch of blocks. -/
def predictT (e : ℚ → ℚ) (p : ModelParams) (blocks : List (List (List ℚ))) :
    List (List ℚ) :=
  blocks.map (forwardBlock e p)

/-! ### Index-level helper lemmas -/

theorem getD_mem_of_lt {α : Type} (l : List α) (t : ℕ) (ht : t < l.length)
    (d : α) : l.getD t d ∈ l := by
  rw [List.getD_eq_getElem _ _ ht]
  exact List.getElem_mem ht

theorem getD_map_of_lt {α β : Type} (f : α → β) (l : List α) (t : ℕ)
    (ht : t < l.length) (d : α) (d2 : β) :
    (l.map f).getD t d2 = f (l.getD t d) := by
  rw [List.getD_eq_getElem _ _ (by simpa using ht), List.getElem_map,
    List.getD_eq_getElem _ _ ht]

theorem getD_zipWith_of_lt {α β γ : Type} (f : α → β → γ) (a : List α)
    (b : List β) (c : ℕ) (hca : c < a.length) (hcb : c < b.length)
    (da : α) (db : β) (dc : γ) :
    (List.zipWith f a b).getD c dc = f (a.getD c da) (b.getD c db) := by
  have h : c < (List.zipWith f a b).length := by
    rw [List.length_zipWith]
    omega
  rw [List.getD_eq_getElem _ _ h, List.getElem_zipWith,
    List.getD_eq_getElem _ _ hca, List.getD_eq_getElem _ _ hcb]

theorem map_eq_map_range {α β : Type} (d : α) (g : α → β) :
    ∀ l : List α,
      l.map g = (List.range l.length).map (fun i => g (l.getD i d))
  | [] => by simp
  | a :: l => by
    simp only [List.map_cons, List.length_cons, List.range_succ_eq_map,
      List.map_map, Function.comp_def, List.getD_cons_zero,
      List.getD_cons_succ]
    rw [map_eq_map_range d g l]

theorem sumRows_length (C : ℕ) :
    ∀ m : List (List ℚ), (∀ r ∈ m, r.length = C) → m ≠ [] →
      (sumRows m).length = C
  | [], _, hne => absurd rfl hne
  | [r], h, _ => by simpa [sumRows] using h r (by simp)
  | r :: r2 :: rs, h, _ => by
    have ih := sumRows_length C (r2 :: rs)
      (fun x hx => h x (List.mem_cons_of_mem _ hx)) (by simp)
    have h1 : r.length = C := h r (by simp)
    simp [sumRows, List.length_zipWith, ih, h1]

theorem sumRows_getD (C c : ℕ) (hc : c < C) :
    ∀ m : List (List ℚ), (∀ r ∈ m, r.length = C) →
      (sumRows m).getD c 0 = (m.map (fun r => r.getD c 0)).sum
  | [], _ => by simp [sumRows]
  | [r], _ => by simp [sumRows]
  | r :: r2 :: rs, h => by
    have ih := sumRows_getD C c hc (r2 :: rs)
      (fun x hx => h x (List.mem_cons_of_mem _ hx))
    have h1 : r.length = C := h r (by simp)
    have h2 : (sumRows (r2 :: rs)).length = C :=
      sumRows_length C (r2 :: rs)
        (fun x hx => h x (List.mem_cons_of_mem _ hx)) (by simp)
    have hstep : sumRows (r :: r2 :: rs)
        = List.zipWith (· + ·) r (sumRows (r2 :: rs)) := rfl
    rw [hstep, getD_zipWith_of_lt (· + ·) r (sumRows (r2 :: rs)) c
      (by omega) (by omega) 0 0 0, List.map_cons, List.sum_cons, ih]

theorem clipAtt_length (att : List (List ℚ)) :
    (clipAtt att).length = att.length := by
  simp [clipAtt]

theorem clipAtt_rect (C : ℕ) (att : List (List ℚ))
    (h : ∀ r ∈ att, r.length = C) :
    ∀ r ∈ clipAtt att, r.length = C := by
  intro r hr
  rcases List.mem_map.mp hr with ⟨row, hrow, rfl⟩
  simpa using h row hrow

theorem clipAtt_entry (att : List (List ℚ)) (t c : ℕ) (ht : t < att.length)
    (hc : c < (att.getD t []).length) :
    ((clipAtt att).getD t []).getD c 0
      = clip ((att.getD t []).getD c 0) epsilonAP (1 - epsilonAP) := by
  rw [clipAtt, getD_map_of_lt _ att t ht [] [],
    getD_map_of_lt _ (att.getD t []) c hc 0 0]

theorem sumRows_clipAtt_length (att : List (List ℚ)) (C : ℕ)
    (hrect : ∀ r ∈ att, r.length = C) (hne : att ≠ []) :
    (sumRows (clipAtt att)).length = C := by
  apply sumRows_length C (clipAtt att) (clipAtt_rect C att hrect)
  intro hmap
  apply hne
  have hl := congrArg List.length hmap
  rw [clipAtt_length] at hl
  exact List.length_eq_zero.mp hl

theorem sumClipAtt_getD (att : List (List ℚ)) (T C c : ℕ)
    (hlen : att.length = T) (hrect : ∀ r ∈ att, r.length = C)
    (hc : c < C) :
    (sumRows (clipAtt att)).getD c 0
      = ((List.range T).map (fun u =>
          clip ((att.getD u []).getD c 0) epsilonAP (1 - epsilonAP))).sum := by
  rw [sumRows_getD C c hc (clipAtt att) (clipAtt_rect C att hrect),
    map_eq_map_range [] (fun r => r.getD c 0) (clipAtt att),
    clipAtt_length, hlen]
  apply congrArg
  apply List.map_congr_left
  intro u hu
  rw [List.mem_range] at hu
  exact clipAtt_entry att u c (by omega)
    (by rw [hrect _ (getD_mem_of_lt att u (by omega) [])]; omega)

theorem normalizedAtt_length (att : List (List ℚ)) :
    (normalizedAtt att).length = att.length := by
  simp [normalizedAtt, clipAtt]

theorem normalizedAtt_rect (att : List (List ℚ)) (C : ℕ)
    (hrect : ∀ r ∈ att, r.length = C) (hne : att ≠ []) :
    ∀ r ∈ normalizedAtt att, r.length = C := by
  intro r hr
  rcases List.mem_map.mp hr with ⟨row, hrow, rfl⟩
  have h1 : row.length = C := clipAtt_rect C att hrect row hrow
  have h2 : (sumRows (clipAtt att)).length = C :=
    sumRows_clipAtt_length att C hrect hne
  simp [List.length_zipWith, h1, h2]

theorem normalizedAtt_entry (att : List (List ℚ)) (T C t c : ℕ)
    (hlen : att.length = T) (hrect : ∀ r ∈ att, r.length = C)
    (ht : t < T) (hc : c < C) :
    ((normalizedAtt att).getD t []).getD c 0
      = clip ((att.getD t []).getD c 0) epsilonAP (1 - epsilonAP)
          / (sumRows (clipAtt att)).getD c 0 := by
  have hne : att ≠ [] := by
    intro h
    subst h
    simp at hlen
    omega
  have htl : t < (clipAtt att).length := by rw [clipAtt_length]; omega
  have hrowlen : ((clipAtt att).getD t []).length = C :=
    clipAtt_rect C att hrect _ (getD_mem_of_lt _ t htl [])
  have hslen : (sumRows (clipAtt att)).length = C :=
    sumRows_clipAtt_length att C hrect hne
  rw [normalizedAtt, getD_map_of_lt _ (clipAtt att) t htl [] [],
    getD_zipWith_of_lt (· / ·) _ _ c (by omega) (by omega) 0 0 0,
    clipAtt_entry att t c (by omega)
      (by rw [hrect _ (getD_mem_of_lt att t (by omega) [])]; omega)]

theorem attention_pooling_rect (out att : List (List ℚ)) (T C : ℕ)
    (houtl : out.length = T) (houtr : ∀ r ∈ out, r.length = C)
    (hattl : att.length = T) (hattr : ∀ r ∈ att, r.length = C)
    (hT : 0 < T) :
    ∀ r ∈ List.zipWith (List.zipWith (· * ·)) out (normalizedAtt att),
      r.length = C := by
  have hne : att ≠ [] := by
    intro h
    subst h
    simp at hattl
    omega
  intro r hr
  rcases List.mem_iff_getElem.mp hr with ⟨k, hk, rfl⟩
  have hk2 : k < out.length ∧ k < (normalizedAtt att).length := by
    rw [List.length_zipWith] at hk
    omega
  rw [List.getElem_zipWith, List.length_zipWith]
  have hka : k < out.length := hk2.1
  have hkb : k < (normalizedAtt att).length := hk2.2
  have h1 : out[k].length = C := houtr _ (List.getElem_mem hka)
  have h2 : ((normalizedAtt att)[k]).length = C :=
    normalizedAtt_rect att C hattr hne _ (List.getElem_mem hkb)
  omega

theorem attention_pooling_length (out att : List (List ℚ)) (T C : ℕ)
    (houtl : out.length = T) (houtr : ∀ r ∈ out, r.length = C)
    (hattl : att.length = T) (hattr : ∀ r ∈ att, r.length = C)
    (hT : 0 < T) :
    (attention_pooling out att).length = C := by
  rw [attention_pooling]
  apply sumRows_length C _
    (attention_pooling_rect out att T C houtl houtr hattl hattr hT)
  intro h
  have hl := congrArg List.length h
  rw [List.length_zipWith, normalizedAtt_length, houtl, hattl] at hl
  simp at hl
  omega

theorem attention_pooling_getD (out att : List (List ℚ)) (T C c : ℕ)
    (houtl : out.length = T) (houtr : ∀ r ∈ out, r.length = C)
    (hattl : att.length = T) (hattr : ∀ r ∈ att, r.length = C)
    (hT : 0 < T) (hc : c < C) :
    (attention_pooling out att).getD c 0
      = ((List.range T).map (fun t =>
          (out.getD t []).getD c 0
            * ((normalizedAtt att).getD t []).getD c 0)).sum := by
  have hne : att ≠ [] := by
    intro h
    subst h
    simp at hattl
    omega
  rw [attention_pooling, sumRows_getD C c hc _
      (attention_pooling_rect out att T C houtl houtr hattl hattr hT),
    map_eq_map_range [] (fun r => r.getD c 0) _]
  have hlenM :
      (List.zipWith (List.zipWith (· * ·)) out (normalizedAtt att)).length
        = T := by
    rw [List.length_zipWith, normalizedAtt_length, houtl, hattl]
    simp
  rw [hlenM]
  apply congrArg
  apply List.map_congr_left
  intro t htT
  rw [List.mem_range] at htT
  have hb1 : t < out.length := by omega
  have hb2 : t < (normalizedAtt att).length := by
    rw [normalizedAtt_length]
    omega
  rw [getD_zipWith_of_lt (List.zipWith (· * ·)) out (normalizedAtt att) t
    hb1 hb2 [] [] []]
  have hc1 : c < (out.getD t []).length := by
    rw [houtr _ (getD_mem_of_lt out t hb1 [])]
    omega
  have hc2 : c < ((normalizedAtt att).getD t []).length := by
    rw [normalizedAtt_rect att C hattr hne _
      (getD_mem_of_lt (normalizedAtt att) t hb2 [])]
    omega
  rw [getD_zipWith_of_lt (· * ·) _ _ c hc1 hc2 0 0 0]

/-- C3: in each attention head the attention-weight tensor is a softmax
over the class axis — each time row is normalized across the classes, not
across time — and attention pooling clips the attention weights to
[1e-7, 1-1e-7], divides them by their sum along the time axis per class,
and returns the time-axis sum of class activations times the normalized
weights, collapsing a (window, C) pair of tensors to a length-C vector. -/
theorem attention_head_spec (e : ℚ → ℚ) (z out att : List (List ℚ))
    (T C : ℕ) (hT : 0 < T)
    (hzl : z.length = T) (hzr : ∀ r ∈ z, r.length = C)
    (houtl : out.length = T) (houtr : ∀ r ∈ out, r.length = C)
    (hattl : att.length = T) (hattr : ∀ r ∈ att, r.length = C) :
    (∀ t c, t < T → c < C →
      ((attWeights e z).getD t []).getD c 0
        = e ((z.getD t []).getD c 0)
            / ((List.range C).map (fun k => e ((z.getD t []).getD k 0))).sum)
    ∧ (attention_pooling out att).length = C
    ∧ (∀ c, c < C →
      (attention_pooling out att).getD c 0
        = ((List.range T).map (fun t =>
            (out.getD t []).getD c 0
              * (clip ((att.getD t []).getD c 0) epsilonAP (1 - epsilonAP)
                  / ((List.range T).map (fun u =>
                      clip ((att.getD u []).getD c 0) epsilonAP
                        (1 - epsilonAP))).sum))).sum) := by
  refine ⟨?_,
    attention_pooling_length out att T C houtl houtr hattl hattr hT, ?_⟩
  · intro t c ht hc
    have htz : t < z.length := by omega
    have hrow : (z.getD t []).length = C := hzr _ (getD_mem_of_lt z t htz [])
    rw [attWeights, getD_map_of_lt _ z t htz [] [], softmaxRow,
      getD_map_of_lt _ (z.getD t []) c (by omega) 0 0,
      map_eq_map_range 0 e (z.getD t []), hrow]
  · intro c hc
    rw [attention_pooling_getD out att T C c houtl houtr hattl hattr hT hc]
    apply congrArg
    apply List.map_congr_left
    intro t htT
    rw [List.mem_range] at htT
    rw [normalizedAtt_entry att T C t c hattl hattr htT hc,
      sumClipAtt_getD att T C c hattl hattr hc]

/-- Witness for C3 on a concrete 1×2 head (constant exponential): the
attention weights are the class-axis softmax (each 1/2), and the pooling
collapses the (1, 2) tensors to the length-2 vector. -/
theorem attention_head_spec_witness :
    attWeights (fun _ => (1:ℚ)) [[5, 7]] = [[1/2, 1/2]]
    ∧ attention_pooling [[1, 2]] [[1, 1]] = [1, 2]
    ∧ (attention_pooling [[1, 2]] [[1, 1]]).length = 2 := by
  refine ⟨?_, ?_, ?_⟩
  · norm_num [attWeights, softmaxRow]
  · norm_num [attention_pooling, normalizedAtt, clipAtt, sumRows, clip,
      epsilonAP, min_def, max_def]
  exact (attention_head_spec (fun _ => (1:ℚ)) [[5, 7]] [[1, 2]] [[1, 1]] 1 2
    (by decide) (by decide) (by decide) (by decide) (by decide) (by decide)
    (by decide)).2.1

theorem sigmoid_nonneg_le_one (e : ℚ → ℚ) (hpos : ∀ x, 0 < e x) (v : ℚ) :
    0 ≤ sigmoid e v ∧ sigmoid e v ≤ 1 := by
  have h1 : 0 < 1 + e (-v) := by
    have := hpos (-v)
    linarith
  simp only [sigmoid]
  constructor
  · exact le_of_lt (div_pos one_pos h1)
  · rw [div_le_one h1]
    have := hpos (-v)
    linarith

/-- C4: every entry of the classifier's output probability tensor lies in
[0, 1]; each class probability is an independent sigmoid applied to the
corresponding output of the final dense layer (not a joint softmax across
classes). -/
theorem classifier_output_range (e : ℚ → ℚ) (hpos : ∀ x, 0 < e x)
    (p : ModelParams) (blocks : List (List (List ℚ))) :
    (∀ row ∈ predictT e p blocks, ∀ v ∈ row, 0 ≤ v ∧ v ≤ 1)
    ∧ ∀ b ∈ blocks, ∀ c, c < (forwardBlock e p b).length →
        (forwardBlock e p b).getD c 0
          = sigmoid e ((preOutput e p b).getD c 0) := by
  constructor
  · intro row hrow v hv
    rcases List.mem_map.mp hrow with ⟨b, hb, rfl⟩
    rcases List.mem_map.mp hv with ⟨u, hu, rfl⟩
    exact sigmoid_nonneg_le_one e hpos u
  · intro b hb c hc
    rw [forwardBlock] at hc ⊢
    rw [getD_map_of_lt (sigmoid e) (preOutput e p b) c (by simpa using hc) 0 0]

/-- Tiny concrete weights for the C4 witness: every layer has width 1 (the
final dense layer takes the length-2 concatenation of the two heads). -/
def demoParams : ModelParams where
  w1 := [[1]]
  b1 := [0]
  sc1 := [1]
  sh1 := [0]
  w2 := [[1]]
  b2 := [0]
  sc2 := [1]
  sh2 := [0]
  w3 := [[1]]
  b3 := [0]
  sc3 := [1]
  sh3 := [0]
  wcla1 := [[1]]
  bcla1 := [0]
  watt1 := [[1]]
  batt1 := [0]
  wcla2 := [[1]]
  bcla2 := [0]
  watt2 := [[1]]
  batt2 := [0]
  wfin := [[1, 1]]
  bfin := [0]

/-- Witness for C4: on a concrete 1×1 block with unit weights and a
constant positive exponential, the output probability tensor is [[1/2]]
and its entry lies in [0, 1]. -/
theorem classifier_output_range_witness :
    predictT (fun _ => (1:ℚ)) demoParams [[[0]]] = [[1/2]]
    ∧ (0 ≤ (1/2 : ℚ) ∧ (1/2 : ℚ) ≤ 1) := by
  have heval : predictT (fun _ => (1:ℚ)) demoParams [[[0]]] = [[1/2]] := by
    norm_num [predictT, forwardBlock, preOutput, denseT, denseRow, bnT,
      reluT, sigT, sigmoid, attWeights, softmaxRow, attention_pooling,
      normalizedAtt, clipAtt, sumRows, clip, epsilonAP, dot, demoParams,
      min_def, max_def]
  refine ⟨heval, ?_⟩
  exact (classifier_output_range (fun _ => (1:ℚ)) (fun x => one_pos)
    demoParams [[[0]]]).1 [1/2]
    (by rw [heval]; exact List.mem_singleton_self _) (1/2)
    (List.mem_singleton_self _)

/-! ## Label Extractor: `model_prediction` -/

/-- The input rescaling `(np.float32(block_10s) - 128.) / 128.`. -/
def rescaleBlock (b : List (List ℚ)) : List (List ℚ) :=
  b.map (fun row => row.map (fun x => (x - 128) / 128))

/-- `prediction = model.predict((np.float32(block_10s) - 128.) / 128.)`:
the model's forward function applied to each rescaled block. -/
def predictionOf (f : List (List ℚ) → List ℚ)
    (block10s : List (List (List ℚ))) : List (List ℚ) :=
  block10s.map (fun b => f (rescaleBlock b))

/-- The (time, class) index pairs of row `i` whose entry exceeds the
threshold, in ascending class order — row `i`'s share of
`np.where(prediction > threshold)`. -/
def rowPairs (m : List (List ℚ)) (t : ℚ) (i : ℕ) : List (ℕ × ℕ) :=
  (List.range (m.getD i []).length).filterMap
    (fun j => if t < (m.getD i []).getD j 0 then some (i, j) else none)

/-- `np.where(prediction > threshold)` as the row-major list of
(time, class) index pairs. -/
def whereGT (m : List (List ℚ)) (t : ℚ) : List (ℕ × ℕ) :=
  ((List.range m.length).map (fun i => rowPairs m t i)).flatten

/-- Embedding of `model_prediction(model, block_10s, threshold)`: rescale,
predict, `np.where(prediction > threshold)`, then for each time step `i`
the boolean mask `i == time_index` selects that step's predicted labels. -/
def model_prediction (f : List (List ℚ) → List ℚ)
    (block10s : List (List (List ℚ))) (threshold : ℚ) :
    List (ℕ × List ℕ) :=
  (List.range block10s.length).map
    (fun i => (i,
      ((whereGT (predictionOf f block10s) threshold).filter
        (fun q => q.1 == i)).map (fun q => q.2)))

theorem filter_flatten {α : Type} (q : α → Bool) :
    ∀ L : List (List α),
      L.flatten.filter q = (L.map (List.filter q)).flatten
  | [] => rfl
  | l :: L => by
    simp [List.flatten_cons, List.filter_append, filter_flatten q L]

theorem rowPairs_fst (m : List (List ℚ)) (t : ℚ) (i : ℕ) :
    ∀ x ∈ rowPairs m t i, x.1 = i := by
  intro x hx
  rcases List.mem_filterMap.mp hx with ⟨j, hj, hjx⟩
  by_cases h : t < (m.getD i []).getD j 0
  · rw [if_pos h] at hjx
    injection hjx with h2
    subst h2
    rfl
  · rw [if_neg h] at hjx
    exact Option.noConfusion hjx

theorem rowPairs_filter (m : List (List ℚ)) (t : ℚ) (i i0 : ℕ) :
    (rowPairs m t i).filter (fun q => q.1 == i0)
      = if i0 = i then rowPairs m t i else [] := by
  by_cases h : i0 = i
  · subst h
    rw [if_pos rfl]
    apply List.filter_eq_self.mpr
    intro a ha
    simpa using rowPairs_fst m t i0 a ha
  · rw [if_neg h]
    apply List.filter_eq_nil_iff.mpr
    intro a ha
    have ha1 := rowPairs_fst m t i a ha
    simp [ha1, beq_iff_eq]
    omega

theorem flatten_map_range_if {α : Type} (A : ℕ → List α) (i0 : ℕ) :
    ∀ n : ℕ,
      ((List.range n).map (fun i => if i0 = i then A i else [])).flatten
        = if i0 < n then A i0 else []
  | 0 => by simp
  | n + 1 => by
    rw [List.range_succ, List.map_append, List.flatten_append,
      flatten_map_range_if A i0 n]
    by_cases h1 : i0 < n
    · have h2 : ¬ i0 = n := by omega
      have h3 : i0 < n + 1 := by omega
      simp [h1, h2, h3]
    · by_cases h2 : i0 = n
      · subst h2
        simp [h1, Nat.lt_succ_self]
      · have h3 : ¬ i0 < n + 1 := by omega
        simp [h1, h2, h3]

theorem map_snd_rowPairs (m : List (List ℚ)) (t : ℚ) (i : ℕ) :
    (rowPairs m t i).map (fun q => q.2)
      = (List.range (m.getD i []).length).filter
          (fun j => decide (t < (m.getD i []).getD j 0)) := by
  rw [rowPairs]
  generalize List.range (m.getD i []).length = l
  induction l with
  | nil => rfl
  | cons a l ih =>
    by_cases h : t < (m.getD i []).getD a 0
    · simp only [List.filterMap_cons, if_pos h, List.map_cons,
        List.filter_cons, decide_eq_true h]
      rw [ih]
      simp
    · simp only [List.filterMap_cons, if_neg h, List.filter_cons]
      rw [decide_eq_false h]
      exact ih

theorem predictionOf_length (f : List (List ℚ) → List ℚ)
    (block10s : List (List (List ℚ))) :
    (predictionOf f block10s).length = block10s.length := by
  simp [predictionOf]

theorem model_prediction_length (f : List (List ℚ) → List ℚ)
    (block10s : List (List (List ℚ))) (t : ℚ) :
    (model_prediction f block10s t).length = block10s.length := by
  simp [model_prediction]

theorem model_prediction_getD (f : List (List ℚ) → List ℚ)
    (block10s : List (List (List ℚ))) (t : ℚ) (i : ℕ)
    (hi : i < block10s.length) :
    (model_prediction f block10s t).getD i (0, [])
      = (i,
        (List.range (((predictionOf f block10s).getD i []).length)).filter
          (fun j =>
            decide (t < ((predictionOf f block10s).getD i []).getD j 0))) := by
  have hstep : ((whereGT (predictionOf f block10s) t).filter
      (fun q => q.1 == i)).map (fun q => q.2)
      = (List.range (((predictionOf f block10s).getD i []).length)).filter
          (fun j =>
            decide (t < ((predictionOf f block10s).getD i []).getD j 0)) := by
    rw [whereGT, filter_flatten, List.map_map]
    have hcong : (List.range (predictionOf f block10s).length).map
        (List.filter (fun q => q.1 == i)
          ∘ fun i2 => rowPairs (predictionOf f block10s) t i2)
        = (List.range (predictionOf f block10s).length).map
            (fun i2 =>
              if i = i2 then rowPairs (predictionOf f block10s) t i2
              else []) := by
      apply List.map_congr_left
      intro i2 _
      simp only [Function.comp_apply]
      exact rowPairs_filter (predictionOf f block10s) t i2 i
    rw [hcong, flatten_map_range_if,
      if_pos (by rw [predictionOf_length]; omega :
        i < (predictionOf f block10s).length),
      map_snd_rowPairs]
  rw [model_prediction]
  rw [getD_map_of_lt _ (List.range block10s.length) i (by simpa using hi)
    0 (0, [])]
  rw [List.getD_eq_getElem _ _ (by simpa using hi), List.getElem_range]
  rw [hstep]

/-- C5: for each in-range block index `i`, the label extractor selects
exactly the class indices `j` with `probability_tensor[i][j] > threshold`
(strict inequality), and the selected indices appear in ascending
class-index order. -/
theorem extract_labels_spec (f : List (List ℚ) → List ℚ)
    (block10s : List (List (List ℚ))) (t : ℚ) (i : ℕ)
    (hi : i < block10s.length) :
    (∀ j : ℕ,
      j ∈ ((model_prediction f block10s t).getD i (0, [])).2
        ↔ j < ((predictionOf f block10s).getD i []).length
            ∧ t < ((predictionOf f block10s).getD i []).getD j 0)
    ∧ ((model_prediction f block10s t).getD i (0, [])).2.Pairwise
        (· < ·) := by
  rw [model_prediction_getD f block10s t i hi]
  constructor
  · intro j
    simp [List.mem_filter, List.mem_range]
  · exact List.Pairwise.filter _ (List.pairwise_lt_range _)

/-- Witness for C5 on the probability row [3, 0, 5] at threshold 1:
classes 0 and 2 are selected, in ascending order, and membership of class 2
is characterized by the strict comparison. -/
theorem extract_labels_spec_witness :
    model_prediction (fun _ => [(3:ℚ), 0, 5]) [[[0]]] 1 = [(0, [0, 2])]
    ∧ (2 ∈ ((model_prediction (fun _ => [(3:ℚ), 0, 5]) [[[0]]] 1).getD 0
          (0, [])).2
        ↔ 2 < ((predictionOf (fun _ => [(3:ℚ), 0, 5]) [[[0]]]).getD 0
              []).length
            ∧ (1:ℚ) < ((predictionOf (fun _ => [(3:ℚ), 0, 5])
                [[[0]]]).getD 0 []).getD 2 0) := by
  constructor
  · norm_num [model_prediction, whereGT, rowPairs, predictionOf,
      List.range_succ, List.filterMap_cons, List.filter_cons]
  · exact (extract_labels_spec (fun _ => [(3:ℚ), 0, 5]) [[[0]]] 1 0
      (by norm_num)).1 2

/-- C6: the label extractor's output has exactly one entry per block index
`0 .. N-1`, in order — a block index is present even when its label list is
empty. -/
theorem extract_labels_complete (f : List (List ℚ) → List ℚ)
    (block10s : List (List (List ℚ))) (t : ℚ) :
    (model_prediction f block10s t).map Prod.fst
        = List.range block10s.length
    ∧ (model_prediction f block10s t).length = block10s.length := by
  constructor
  · rw [model_prediction, List.map_map]
    simp [Function.comp_def]
  · simp [model_prediction]

/-- C7: for a fixed probability tensor and thresholds `t1 ≤ t2`, each
block's selection at `t2` is a subset of the selection at `t1`, and its
label list is no longer. -/
theorem threshold_monotonic (f : List (List ℚ) → List ℚ)
    (block10s : List (List (List ℚ))) (t1 t2 : ℚ) (h12 : t1 ≤ t2)
    (i : ℕ) :
    ((model_prediction f block10s t2).getD i (0, [])).2
        ⊆ ((model_prediction f block10s t1).getD i (0, [])).2
    ∧ ((model_prediction f block10s t2).getD i (0, [])).2.length
        ≤ ((model_prediction f block10s t1).getD i (0, [])).2.length := by
  by_cases hi : i < block10s.length
  · rw [model_prediction_getD f block10s t2 i hi,
      model_prediction_getD f block10s t1 i hi]
    have hsub : List.Sublist
        ((List.range (((predictionOf f block10s).getD i []).length)).filter
          (fun j =>
            decide (t2 < ((predictionOf f block10s).getD i []).getD j 0)))
        ((List.range
              (((predictionOf f block10s).getD i []).length)).filter
          (fun j =>
            decide (t1 < ((predictionOf f block10s).getD i []).getD j 0)))
        := by
      apply List.monotone_filter_right
      intro a ha
      simp only [decide_eq_true_eq] at ha ⊢
      linarith
    exact ⟨hsub.subset, hsub.length_le⟩
  · have h1 : (model_prediction f block10s t2).getD i (0, []) = (0, []) :=
      List.getD_eq_default _ _ (by rw [model_prediction_length]; omega)
    have h2 : (model_prediction f block10s t1).getD i (0, []) = (0, []) :=
      List.getD_eq_default _ _ (by rw [model_prediction_length]; omega)
    rw [h1, h2]
    exact ⟨fun a ha => ha, le_refl _⟩

/-- Witness for C7 on the probability row [1, 3]: at threshold 2 only
class 1 is selected, at threshold 0 classes 0 and 1 are, and the theorem
gives the length inequality. -/
theorem threshold_monotonic_witness :
    ((model_prediction (fun _ => [(1:ℚ), 3]) [[[0]]] 2).getD 0 (0, [])).2
        = [1]
    ∧ ((model_prediction (fun _ => [(1:ℚ), 3]) [[[0]]] 0).getD 0 (0, [])).2
        = [0, 1]
    ∧ ((model_prediction (fun _ => [(1:ℚ), 3]) [[[0]]] 2).getD 0
          (0, [])).2.length
        ≤ ((model_prediction (fun _ => [(1:ℚ), 3]) [[[0]]] 0).getD 0
          (0, [])).2.length := by
  refine ⟨?_, ?_, ?_⟩
  · norm_num [model_prediction, whereGT, rowPairs, predictionOf,
      List.range_succ, List.filterMap_cons, List.filter_cons]
  · norm_num [model_prediction, whereGT, rowPairs, predictionOf,
      List.range_succ, List.filterMap_cons, List.filter_cons]
  · exact (threshold_monotonic (fun _ => [(1:ℚ), 3]) [[[0]]] 0 2
      (by norm_num) 0).2

/-- C10: each block's list of selected class indices contains no
duplicates. -/
theorem labels_nodup (f : List (List ℚ) → List ℚ)
    (block10s : List (List (List ℚ))) (t : ℚ) :
    ∀ i : ℕ, ((model_prediction f block10s t).getD i (0, [])).2.Nodup := by
  intro i
  by_cases hi : i < block10s.length
  · rw [model_prediction_getD f block10s t i hi]
    exact List.Pairwise.imp (fun h => Nat.ne_of_lt h)
      (List.Pairwise.filter _ (List.pairwise_lt_range _))
  · rw [List.getD_eq_default _ _ (by rw [model_prediction_length]; omega)]
    exact List.nodup_nil

/-- C8: the value fed to the network at position (i, j) of a block is
exactly `(x - 128) / 128`, and the prediction depends on the model function
only through its values on rescaled blocks — the network never sees the raw
quantized embedding values. -/
theorem input_rescaling (f g : List (List ℚ) → List ℚ)
    (block10s : List (List (List ℚ))) (t : ℚ) :
    (∀ b : List (List ℚ), ∀ i j : ℕ, i < b.length →
        j < (b.getD i []).length →
        ((rescaleBlock b).getD i []).getD j 0
          = ((b.getD i []).getD j 0 - 128) / 128)
    ∧ ((∀ b, f (rescaleBlock b) = g (rescaleBlock b)) →
        model_prediction f block10s t = model_prediction g block10s t) := by
  constructor
  · intro b i j hi hj
    rw [rescaleBlock, getD_map_of_lt _ b i hi [] [],
      getD_map_of_lt _ (b.getD i []) j hj 0 0]
  · intro hfg
    have hP : predictionOf f block10s = predictionOf g block10s := by
      apply List.map_congr_left
      intro b _
      exact hfg b
    rw [model_prediction, model_prediction, hP]

/-- Witness for C8: concrete rescaling of the endpoints 0 and 256, and two
syntactically different model functions that agree on rescaled inputs give
the same prediction. -/
theorem input_rescaling_witness :
    rescaleBlock [[(0:ℚ), 256]] = [[-1, 1]]
    ∧ model_prediction (fun m => [0 + (m.getD 0 []).getD 0 0]) [[[(5:ℚ)]]] 0
        = model_prediction (fun m => [(m.getD 0 []).getD 0 0])
            [[[(5:ℚ)]]] 0 := by
  constructor
  · norm_num [rescaleBlock]
  · exact (input_rescaling (fun m => [0 + (m.getD 0 []).getD 0 0])
      (fun m => [(m.getD 0 []).getD 0 0]) [[[(5:ℚ)]]] 0).2
      (fun b => by rw [zero_add])

/-! ## Name resolution: `prediction_label` -/

/-- The failure of looking up a predicted class index with no row in the
label table (the pandas KeyError of `series[y]` on an out-of-range label
list; `LabelLookupError` in the spec's taxonomy). -/
inductive PredictionError where
  | labelLookupError
deriving DecidableEq

/-- `list(series[ys])`: the label-column values at rows `ys`, in the order
of `ys`; any out-of-range row index fails the whole lookup. -/
def resolveIndices (series : List String) :
    List ℕ → Except PredictionError (List String)
  | [] => Except.ok []
  | y :: ys =>
    match series[y]? with
    | some s =>
      match resolveIndices series ys with
      | Except.ok rest => Except.ok (s :: rest)
      | Except.error err => Except.error err
    | none => Except.error PredictionError.labelLookupError

/-- Embedding of `prediction_label`: the dict
`{x: list(series[y]) for x, y in preds}` as an association list, with the
pandas lookup failure made explicit. -/
def prediction_label (series : List String) :
    List (ℕ × List ℕ) → Except PredictionError (List (ℕ × List String))
  | [] => Except.ok []
  | (x, ys) :: rest =>
    match resolveIndices series ys with
    | Except.ok names =>
      match prediction_label series rest with
      | Except.ok tail => Except.ok ((x, names) :: tail)
      | Except.error err => Except.error err
    | Except.error err => Except.error err

theorem resolveIndices_ok (series : List String) :
    ∀ ys : List ℕ, (∀ y ∈ ys, y < series.length) →
      resolveIndices series ys
        = Except.ok (ys.map (fun y => series.getD y ""))
  | [], _ => rfl
  | y :: ys, h => by
    have hy : y < series.length := h y (by simp)
    have ih := resolveIndices_ok series ys
      (fun a ha => h a (List.mem_cons_of_mem _ ha))
    simp only [resolveIndices, List.getElem?_eq_getElem hy, ih,
      List.map_cons]
    rw [List.getD_eq_getElem _ _ hy]

theorem resolveIndices_error (series : List String) :
    ∀ ys : List ℕ, (∃ y ∈ ys, series.length ≤ y) →
      resolveIndices series ys
        = Except.error PredictionError.labelLookupError
  | [], h => by
    exfalso
    rcases h with ⟨a, ha, _⟩
    exact (List.not_mem_nil a) ha
  | y :: ys, h => by
    by_cases hy : y < series.length
    · have hex : ∃ a ∈ ys, series.length ≤ a := by
        rcases h with ⟨a, ha, hlen⟩
        rcases List.mem_cons.mp ha with h1 | h1
        · exfalso
          subst h1
          omega
        · exact ⟨a, h1, hlen⟩
      have ih := resolveIndices_error series ys hex
      simp only [resolveIndices, List.getElem?_eq_getElem hy, ih]
    · have hnone : series[y]? = none := List.getElem?_eq_none (by omega)
      simp only [resolveIndices, hnone]

theorem prediction_label_ok (series : List String) :
    ∀ preds : List (ℕ × List ℕ),
      (∀ pr ∈ preds, ∀ y ∈ pr.2, y < series.length) →
      prediction_label series preds
        = Except.ok (preds.map (fun pr =>
            (pr.1, pr.2.map (fun y => series.getD y ""))))
  | [], _ => rfl
  | (x, ys) :: rest, h => by
    have h1 : ∀ y ∈ ys, y < series.length := h (x, ys) (by simp)
    have ih := prediction_label_ok series rest
      (fun pr hpr => h pr (List.mem_cons_of_mem _ hpr))
    simp only [prediction_label, resolveIndices_ok series ys h1, ih,
      List.map_cons]

theorem prediction_label_error (series : List String) :
    ∀ preds : List (ℕ × List ℕ),
      (∃ pr ∈ preds, ∃ y ∈ pr.2, series.length ≤ y) →
      prediction_label series preds
        = Except.error PredictionError.labelLookupError
  | [], h => by
    exfalso
    rcases h with ⟨a, ha, _⟩
    exact (List.not_mem_nil a) ha
  | (x, ys) :: rest, h => by
    by_cases hbad : ∃ y ∈ ys, series.length ≤ y
    · simp only [prediction_label, resolveIndices_error series ys hbad]
    · have hex : ∃ pr ∈ rest, ∃ y ∈ pr.2, series.length ≤ y := by
        rcases h with ⟨pr, hpr, hy⟩
        rcases List.mem_cons.mp hpr with h1 | h1
        · exfalso
          apply hbad
          subst h1
          exact hy
        · exact ⟨pr, h1, hy⟩
      cases hres : resolveIndices series ys with
      | ok names =>
        simp only [prediction_label, hres,
          prediction_label_error series rest hex]
      | error err =>
        simp only [prediction_label, hres]

/-- C9: name resolution looks up each predicted class index as a row number
of the label table column; it fails with the label-lookup error whenever
some predicted index has no row in the table, and otherwise succeeds with
one name per index, in the order of the indices. -/
theorem prediction_label_spec (series : List String)
    (preds : List (ℕ × List ℕ)) :
    ((∃ pr ∈ preds, ∃ y ∈ pr.2, series.length ≤ y) →
        prediction_label series preds
          = Except.error PredictionError.labelLookupError)
    ∧ ((∀ pr ∈ preds, ∀ y ∈ pr.2, y < series.length) →
        prediction_label series preds
          = Except.ok (preds.map (fun pr =>
              (pr.1, pr.2.map (fun y => series.getD y ""))))) :=
  ⟨fun h => prediction_label_error series preds h,
   fun h => prediction_label_ok series preds h⟩

/-- Witness for C9: lookups in the two-row table ["a", "b"] succeed with
one name per index in the order of the indices; index 3 in the one-row
table ["a"] fails with the label-lookup error. -/
theorem prediction_label_spec_witness :
    prediction_label ["a", "b"] [(0, [1, 0])] = Except.ok [(0, ["b", "a"])]
    ∧ prediction_label ["a"] [(0, [3])]
        = Except.error PredictionError.labelLookupError := by
  constructor
  · have h := (prediction_label_spec ["a", "b"] [(0, [1, 0])]).2 (by decide)
    rw [h]
    rfl
  · exact (prediction_label_spec ["a"] [(0, [3])]).1
      ⟨(0, [3]), by simp, 3, by simp, by decide⟩

/-- Witness for C10 at a concrete prediction: the block-0 label list of the
row [1, 3] at threshold 0 has no duplicates. -/
theorem labels_nodup_witness :
    ((model_prediction (fun _ => [(1:ℚ), 3]) [[[0]]] 0).getD 0
      (0, [])).2.Nodup :=
  labels_nodup (fun _ => [(1:ℚ), 3]) [[[0]]] 0 0
